import Mathlib

/-!
Verification development for the HeartbeatsData repository.

The repository holds two near-duplicate modules, `src/heartbeats_data.py`
(called V1 below) and `src/HeartbeatsData/heartbeats_data.py` (called V2
below), each defining a class `HeartbeatData` with an event store
(`hb_types`, `dates`, `secs_since_midnights`, `hb_type_counter`) and two
single-pass aggregation methods, `calc_durations` and
`calc_duration_counts`.

Shallow embedding conventions:
* a Python `datetime.date` is embedded as its proleptic-Gregorian ordinal
  (`datetime.date.toordinal`), an integer; ordinal 1 (0001-01-01) is a
  Monday, so `date.weekday()` (Monday = 0) is `(ordinal - 1) % 7`;
* Python integers are `Int`;
* a heartbeat record is the triple `(hb_type, date, secs_since_midnight)`
  taken from the three parallel lists, zipped as in the source loops;
* the insertion-ordered Python dict built with
  `durations.setdefault(curr_date, []).append(...)` is an association
  list `List (Date × List Dur)` with `appendDur` playing the role of the
  `setdefault(...).append(...)` line;
* the numpy matrix `zeros((7, 86399))` is a function `Int → Int → Int`
  that is zero outside the index rectangle, and the slice increment
  `m[row, lo:hi] += 1` clips the slice bounds to `[0, 86399]` exactly as
  numpy basic slicing does (`npClip`);
* V2's `next(heartbeats)` on an empty store raises `StopIteration`;
  fallible V2 entry points therefore return an `Option`.
-/

/-- A calendar date, embedded as its proleptic-Gregorian ordinal
(`datetime.date.toordinal`). -/
abbrev Date := Int

/-- `date.weekday()` in Python: Monday = 0 .. Sunday = 6.  Ordinal 1
(0001-01-01) is a Monday in the proleptic Gregorian calendar. -/
def weekday (d : Date) : Int := (d - 1) % 7

/-- One heartbeat record, as produced by `add_hb`: the entries at one
index of the three parallel lists `hb_types`, `dates`,
`secs_since_midnights`. -/
structure HB where
  hbType : String
  date : Date
  secs : Int
  deriving DecidableEq, Repr

/-- One entry of a durations list: `(curr_hb_type, curr_start,
curr_end - curr_start)` as appended by `calc_durations`. -/
abbrev Dur := String × Int × Int

/-- The insertion-ordered dict `self.durations`: date key to list of
duration triples. -/
abbrev DurMap := List (Date × List Dur)

/-- `self.durations.setdefault(d, []).append(v)`: if the key `d` is
present, append `v` to its list, else insert the key at the end with the
one-element list `[v]`. -/
def appendDur (m : DurMap) (d : Date) (v : Dur) : DurMap :=
  match m with
  | [] => [(d, [v])]
  | p :: rest => if p.1 = d then (p.1, p.2 ++ [v]) :: rest else p :: appendDur rest d v

/-- Dictionary lookup with default `[]`: the list stored under key `d`
(empty if `d` is not a key). -/
def getDur (m : DurMap) (d : Date) : List Dur :=
  match m with
  | [] => []
  | p :: rest => if p.1 = d then p.2 else getDur rest d

/-- Total number of duration triples in the mapping, all dates
together. -/
def totalCount (m : DurMap) : Nat := (m.map (fun p => p.2.length)).sum

/-- Loop state of V1's `calc_durations` (src/heartbeats_data.py lines
60-64).  In the source `curr_hb_type` and `curr_date` start as `None`
and are always (re)assigned together (lines 69-70), so they are bundled
into one `Option`; `curr_start` and `curr_end` start as `0`. -/
structure DurState where
  durations : DurMap
  curr : Option (String × Date)
  currStart : Int
  currEnd : Int
  deriving DecidableEq, Repr

/-- One iteration of V1's `calc_durations` loop (src/heartbeats_data.py
lines 65-72).  When `curr` is `None` the `or`-condition on line 66 is
true and the `curr_hb_type is not None` guard on line 67 skips the
append. -/
def durStep (t : Int) (s : DurState) (e : HB) : DurState :=
  match s.curr with
  | none =>
      { durations := s.durations, curr := some (e.hbType, e.date),
        currStart := e.secs, currEnd := e.secs }
  | some (c, d) =>
      if e.hbType ≠ c ∨ e.date ≠ d ∨ s.currEnd + t < e.secs then
        { durations := appendDur s.durations d (c, s.currStart, s.currEnd - s.currStart),
          curr := some (e.hbType, e.date), currStart := e.secs, currEnd := e.secs }
      else
        { s with currEnd := e.secs }

/-- The state V1's `calc_durations` loop starts from (lines 60-64). -/
def initDurState : DurState := ⟨[], none, 0, 0⟩

/-- The loop state after V1's `calc_durations` has consumed the whole
zipped stream. -/
def finalDurState (hbs : List HB) (t : Int) : DurState :=
  hbs.foldl (durStep t) initDurState

/-- V1's `calc_durations` (src/heartbeats_data.py lines 58-72): the
mapping left in `self.durations` after the loop.  The run that is still
open when the loop ends is not appended. -/
def calc_durations (hbs : List HB) (t : Int) : DurMap :=
  (finalDurState hbs t).durations

/-- Modelled from the spec: the always-flush policy the spec recommends
in its design notes (close the final open run into the output after the
loop).  Not present in either source file; used only to compare against
the source behavior. -/
def calc_durationsFlush (hbs : List HB) (t : Int) : DurMap :=
  match (finalDurState hbs t).curr with
  | none => (finalDurState hbs t).durations
  | some (c, d) =>
      appendDur (finalDurState hbs t).durations d
        (c, (finalDurState hbs t).currStart,
          (finalDurState hbs t).currEnd - (finalDurState hbs t).currStart)

/-- Loop state of V2's `calc_durations`
(src/HeartbeatsData/heartbeats_data.py lines 70-73), seeded from the
first heartbeat, so no field is optional. -/
structure DurStateV2 where
  durations : DurMap
  currType : String
  currDate : Date
  currStart : Int
  currEnd : Int
  deriving DecidableEq, Repr

/-- One iteration of V2's `calc_durations` loop
(src/HeartbeatsData/heartbeats_data.py lines 74-80). -/
def durStepV2 (t : Int) (s : DurStateV2) (e : HB) : DurStateV2 :=
  if e.hbType ≠ s.currType ∨ e.date ≠ s.currDate ∨ s.currEnd + t < e.secs then
    { durations := appendDur s.durations s.currDate
        (s.currType, s.currStart, s.currEnd - s.currStart),
      currType := e.hbType, currDate := e.date,
      currStart := e.secs, currEnd := e.secs }
  else
    { s with currEnd := e.secs }

/-- V2's `calc_durations` (src/HeartbeatsData/heartbeats_data.py lines
65-80): `next(heartbeats)` consumes the first event before the loop and
raises `StopIteration` on an empty store, modelled by `none`. -/
def calc_durations_v2 (hbs : List HB) (t : Int) : Option DurMap :=
  match hbs with
  | [] => none
  | e0 :: rest =>
      some ((rest.foldl (durStepV2 t)
        ⟨[], e0.hbType, e0.date, e0.secs, e0.secs⟩).durations)

/-- Chronological order of two consecutive heartbeats: the `(date,
second-of-day)` pairs are non-decreasing (lexicographically). -/
def chron (a b : HB) : Prop :=
  a.date < b.date ∨ (a.date = b.date ∧ a.secs ≤ b.secs)

instance (a b : HB) : Decidable (chron a b) :=
  inferInstanceAs (Decidable (a.date < b.date ∨ (a.date = b.date ∧ a.secs ≤ b.secs)))

/-- A whole stream is chronological when every consecutive pair is. -/
def chronological : List HB → Bool
  | a :: b :: rest => decide (chron a b) && chronological (b :: rest)
  | _ => true

lemma chronological_cons (a : HB) (rest : List HB) :
    chronological (a :: rest) = true ↔
      (∀ b ∈ rest.head?, chron a b) ∧ chronological rest = true := by
  cases rest <;> simp [chronological]

/-! ### Association-list dictionary lemmas -/

lemma totalCount_appendDur (m : DurMap) (d : Date) (v : Dur) :
    totalCount (appendDur m d v) = totalCount m + 1 := by
  induction m with
  | nil => simp [appendDur, totalCount]
  | cons p rest ih =>
      by_cases hd : p.1 = d <;> simp [appendDur, hd, totalCount] at ih ⊢ <;> omega

lemma getDur_appendDur_self (m : DurMap) (d : Date) (v : Dur) :
    getDur (appendDur m d v) d = getDur m d ++ [v] := by
  induction m with
  | nil => simp [appendDur, getDur]
  | cons p rest ih => by_cases hd : p.1 = d <;> simp [appendDur, getDur, hd, ih]

lemma getDur_appendDur_ne (m : DurMap) (d d' : Date) (v : Dur) (h : d' ≠ d) :
    getDur (appendDur m d v) d' = getDur m d' := by
  have hdd : ¬ d = d' := fun hh => h hh.symm
  induction m with
  | nil => simp [appendDur, getDur, hdd]
  | cons p rest ih =>
      by_cases hd : p.1 = d
      · simp [appendDur, getDur, hd, hdd]
      · simp [appendDur, getDur, hd, ih]

lemma length_getDur_appendDur (m : DurMap) (d d' : Date) (v : Dur) :
    (getDur (appendDur m d v) d').length =
      (getDur m d').length + (if d' = d then 1 else 0) := by
  by_cases h : d' = d
  · subst h; simp [getDur_appendDur_self]
  · simp [getDur_appendDur_ne m d d' v h, h]

lemma getDur_eq_nil_of_forall_ne (m : DurMap) (d : Date) (h : ∀ p ∈ m, p.1 ≠ d) :
    getDur m d = [] := by
  induction m with
  | nil => rfl
  | cons p rest ih =>
      have hp : p.1 ≠ d := h p (List.mem_cons_self _ _)
      simp only [getDur, if_neg hp]
      exact ih fun q hq => h q (List.mem_cons_of_mem _ hq)

lemma appendDur_keys_le (m : DurMap) (d b : Date) (v : Dur)
    (hm : ∀ p ∈ m, p.1 ≤ b) (hd : d ≤ b) :
    ∀ p ∈ appendDur m d v, p.1 ≤ b := by
  induction m with
  | nil =>
      intro p hp
      simp [appendDur] at hp
      rw [hp]; exact hd
  | cons q rest ih =>
      intro p hp
      by_cases hq : q.1 = d
      · simp only [appendDur, if_pos hq, List.mem_cons] at hp
        rcases hp with hp | hp
        · rw [hp]; exact hm q (List.mem_cons_self _ _)
        · exact hm p (List.mem_cons_of_mem _ hp)
      · simp only [appendDur, if_neg hq, List.mem_cons] at hp
        rcases hp with hp | hp
        · rw [hp]; exact hm q (List.mem_cons_self _ _)
        · exact ih (fun r hr => hm r (List.mem_cons_of_mem _ hr)) p hp

/-! ### The loop never ends with no open run on a non-empty stream -/

lemma durStep_curr_ne_none (t : Int) (s : DurState) (e : HB) :
    (durStep t s e).curr ≠ none := by
  rcases hs : s.curr with _ | ⟨c, d⟩ <;> simp only [durStep, hs]
  · simp
  · split <;> simp [hs]

lemma foldl_durStep_curr_ne_none (t : Int) (evs : List HB) (s : DurState)
    (h : s.curr ≠ none) : (evs.foldl (durStep t) s).curr ≠ none := by
  induction evs generalizing s with
  | nil => simpa
  | cons e rest ih => exact ih _ (durStep_curr_ne_none t s e)

lemma finalDurState_curr_ne_none (evs : List HB) (t : Int) (h : evs ≠ []) :
    (finalDurState evs t).curr ≠ none := by
  match evs with
  | [] => exact absurd rfl h
  | e :: rest =>
      have he : finalDurState (e :: rest) t
          = rest.foldl (durStep t) (durStep t initDurState e) := rfl
      rw [he]
      exact foldl_durStep_curr_ne_none t rest _ (durStep_curr_ne_none t _ e)

/-! ### Claims C1, C2, C8 -/

/-- C1 (counterexample): for the stream of scenario A — two "A" events
on 2024-01-01 (ordinal 738886) at 09:00:00 and 09:10:00 — with timeout
900, `calc_durations` does NOT produce the claimed mapping with the
single duration ("A", 32400, 600): the date 738886 has no durations at
all in the output. -/
theorem calc_durations_scenarioA_not_singleton :
    calc_durations [⟨"A", 738886, 32400⟩, ⟨"A", 738886, 33000⟩] 900
        ≠ [(738886, [("A", 32400, 600)])] ∧
    getDur (calc_durations [⟨"A", 738886, 32400⟩, ⟨"A", 738886, 33000⟩] 900) 738886
        = [] := by
  decide

/-- C1 (amended): on the scenario-A stream with timeout 900 both
implementations of `calc_durations` return an EMPTY mapping: the run
("A", 32400, 600) is still open when the loop ends and is never
appended; only the always-flush variant would emit exactly that one
duration under 2024-01-01. -/
theorem calc_durations_scenarioA_empty :
    calc_durations [⟨"A", 738886, 32400⟩, ⟨"A", 738886, 33000⟩] 900 = [] ∧
    calc_durations_v2 [⟨"A", 738886, 32400⟩, ⟨"A", 738886, 33000⟩] 900 = some [] ∧
    calc_durationsFlush [⟨"A", 738886, 32400⟩, ⟨"A", 738886, 33000⟩] 900
        = [(738886, [("A", 32400, 600)])] :=
  ⟨by decide, by decide, by decide⟩

/-- C2 (confirmed): for every non-empty stream and every timeout, the
run still open when `calc_durations`'s loop ends is never appended: the
always-flush variant produces exactly the source output plus that one
final open run, so the source mapping contains one duration fewer —
only runs closed during the loop by the line-66 condition (category
change, date change, or gap beyond timeout at a later event). -/
theorem calc_durations_drops_final_open_run (evs : List HB) (t : Int) (h : evs ≠ []) :
    ∃ c d, (finalDurState evs t).curr = some (c, d) ∧
      calc_durationsFlush evs t =
        appendDur (calc_durations evs t) d
          (c, (finalDurState evs t).currStart,
            (finalDurState evs t).currEnd - (finalDurState evs t).currStart) ∧
      totalCount (calc_durationsFlush evs t) = totalCount (calc_durations evs t) + 1 := by
  obtain ⟨⟨c, d⟩, hc⟩ : ∃ p, (finalDurState evs t).curr = some p := by
    cases hcc : (finalDurState evs t).curr with
    | none => exact absurd hcc (finalDurState_curr_ne_none evs t h)
    | some p => exact ⟨p, rfl⟩
  refine ⟨c, d, hc, ?_, ?_⟩
  · simp only [calc_durationsFlush, calc_durations, hc]
  · simp only [calc_durationsFlush, calc_durations, hc]
    exact totalCount_appendDur _ _ _

theorem calc_durations_drops_final_open_run_witness :
    ([⟨"A", 738886, 100⟩, ⟨"B", 738886, 200⟩] : List HB) ≠ [] ∧
    (∃ c d, (finalDurState [⟨"A", 738886, 100⟩, ⟨"B", 738886, 200⟩] 900).curr = some (c, d) ∧
      calc_durationsFlush [⟨"A", 738886, 100⟩, ⟨"B", 738886, 200⟩] 900 =
        appendDur (calc_durations [⟨"A", 738886, 100⟩, ⟨"B", 738886, 200⟩] 900) d
          (c, (finalDurState [⟨"A", 738886, 100⟩, ⟨"B", 738886, 200⟩] 900).currStart,
            (finalDurState [⟨"A", 738886, 100⟩, ⟨"B", 738886, 200⟩] 900).currEnd
              - (finalDurState [⟨"A", 738886, 100⟩, ⟨"B", 738886, 200⟩] 900).currStart) ∧
      totalCount (calc_durationsFlush [⟨"A", 738886, 100⟩, ⟨"B", 738886, 200⟩] 900)
        = totalCount (calc_durations [⟨"A", 738886, 100⟩, ⟨"B", 738886, 200⟩] 900) + 1) :=
  ⟨by decide, calc_durations_drops_final_open_run _ 900 (by decide)⟩

/-- C8 (counterexample): on an empty event store, V2's `calc_durations`
does not terminate normally with an empty mapping: `next(heartbeats)`
raises `StopIteration` (modelled as `none`), so no mapping at all is
produced. -/
theorem calc_durations_v2_empty_raises :
    calc_durations_v2 [] 900 = none ∧
    ∀ m : DurMap, calc_durations_v2 [] 900 ≠ some m :=
  ⟨rfl, fun _ h => Option.noConfusion h⟩

/-- C8 (amended): on an empty event store, V1's `calc_durations`
(src/heartbeats_data.py) terminates normally with an empty mapping, but
V2's (src/HeartbeatsData/heartbeats_data.py) raises `StopIteration`
from `next(heartbeats)` before its loop, modelled as `none`. -/
theorem calc_durations_empty_behavior (t : Int) :
    calc_durations [] t = [] ∧ calc_durations_v2 [] t = none :=
  ⟨rfl, rfl⟩

/-! ### Shape of one `calc_durations` loop iteration -/

lemma durStep_none (t : Int) (s : DurState) (e : HB) (h : s.curr = none) :
    durStep t s e = ⟨s.durations, some (e.hbType, e.date), e.secs, e.secs⟩ := by
  simp [durStep, h]

lemma durStep_close (t : Int) (s : DurState) (c : String) (d : Date) (e : HB)
    (h : s.curr = some (c, d)) (hc : e.hbType ≠ c ∨ e.date ≠ d ∨ s.currEnd + t < e.secs) :
    durStep t s e = ⟨appendDur s.durations d (c, s.currStart, s.currEnd - s.currStart),
      some (e.hbType, e.date), e.secs, e.secs⟩ := by
  simp [durStep, h, hc]

lemma durStep_cont (t : Int) (s : DurState) (c : String) (d : Date) (e : HB)
    (h : s.curr = some (c, d)) (hc : ¬(e.hbType ≠ c ∨ e.date ≠ d ∨ s.currEnd + t < e.secs)) :
    durStep t s e = { s with currEnd := e.secs } := by
  simp [durStep, h, hc]

/-! ### Claim C3 -/

/-- C3 (confirmed): with a run open, an event continues it exactly when
its category equals the run's category, its date equals the run's date,
and its second is at most `curr_end + timeout`; any failure of that
conjunction (strict gap, or category/date change even at zero gap)
appends the closed run and starts a new one at the event; `curr_end`
becomes the event's second in both branches.  Stated for the V1 step
and, in the final conjunct, for V2's step as well. -/
theorem durStep_boundary_policy (t : Int) (s : DurState) (c0 : String) (d0 : Date) (e : HB)
    (h : s.curr = some (c0, d0)) :
    (durStep t s e).currEnd = e.secs ∧
    ((e.hbType = c0 ∧ e.date = d0 ∧ e.secs ≤ s.currEnd + t) →
      durStep t s e = { s with currEnd := e.secs }) ∧
    (¬(e.hbType = c0 ∧ e.date = d0 ∧ e.secs ≤ s.currEnd + t) →
      durStep t s e =
        ⟨appendDur s.durations d0 (c0, s.currStart, s.currEnd - s.currStart),
          some (e.hbType, e.date), e.secs, e.secs⟩) ∧
    (∀ s2 : DurStateV2,
      ((e.hbType = s2.currType ∧ e.date = s2.currDate ∧ e.secs ≤ s2.currEnd + t) →
        durStepV2 t s2 e = { s2 with currEnd := e.secs }) ∧
      (¬(e.hbType = s2.currType ∧ e.date = s2.currDate ∧ e.secs ≤ s2.currEnd + t) →
        durStepV2 t s2 e =
          ⟨appendDur s2.durations s2.currDate
              (s2.currType, s2.currStart, s2.currEnd - s2.currStart),
            e.hbType, e.date, e.secs, e.secs⟩)) := by
  have hiff : ∀ (c : String) (d : Date) (en : Int),
      (e.hbType ≠ c ∨ e.date ≠ d ∨ en + t < e.secs) ↔
        ¬(e.hbType = c ∧ e.date = d ∧ e.secs ≤ en + t) := by
    intro c d en
    constructor
    · rintro (h1 | h2 | h3) ⟨k1, k2, k3⟩
      exacts [h1 k1, h2 k2, absurd k3 (not_le.mpr h3)]
    · intro hn
      by_contra hno
      push_neg at hno
      exact hn ⟨hno.1, hno.2.1, hno.2.2⟩
  refine ⟨?_, ?_, ?_, ?_⟩
  · by_cases hc : e.hbType ≠ c0 ∨ e.date ≠ d0 ∨ s.currEnd + t < e.secs
    · rw [durStep_close t s c0 d0 e h hc]
    · rw [durStep_cont t s c0 d0 e h hc]
  · intro hcont
    exact durStep_cont t s c0 d0 e h (fun hc => (hiff c0 d0 s.currEnd).mp hc hcont)
  · intro hn
    exact durStep_close t s c0 d0 e h ((hiff c0 d0 s.currEnd).mpr hn)
  · intro s2
    constructor
    · intro hcont
      have hc : ¬(e.hbType ≠ s2.currType ∨ e.date ≠ s2.currDate ∨ s2.currEnd + t < e.secs) :=
        fun hc => (hiff s2.currType s2.currDate s2.currEnd).mp hc hcont
      simp [durStepV2, hc]
    · intro hn
      have hc : e.hbType ≠ s2.currType ∨ e.date ≠ s2.currDate ∨ s2.currEnd + t < e.secs :=
        (hiff s2.currType s2.currDate s2.currEnd).mpr hn
      simp [durStepV2, hc]

theorem durStep_boundary_policy_witness :
    (⟨[], some ("A", 738886), 100, 200⟩ : DurState).curr = some ("A", 738886) ∧
    ((durStep 900 ⟨[], some ("A", 738886), 100, 200⟩ ⟨"A", 738886, 300⟩).currEnd = 300 ∧
      (("A" : String) = "A" ∧ (738886 : Date) = 738886 ∧ (300 : Int) ≤ 200 + 900 →
        durStep 900 ⟨[], some ("A", 738886), 100, 200⟩ ⟨"A", 738886, 300⟩
          = { (⟨[], some ("A", 738886), 100, 200⟩ : DurState) with currEnd := 300 }) ∧
      (¬(("A" : String) = "A" ∧ (738886 : Date) = 738886 ∧ (300 : Int) ≤ 200 + 900) →
        durStep 900 ⟨[], some ("A", 738886), 100, 200⟩ ⟨"A", 738886, 300⟩
          = ⟨appendDur [] 738886 ("A", 100, 200 - 100), some ("A", 738886), 300, 300⟩) ∧
      (∀ s2 : DurStateV2,
        (("A" : String) = s2.currType ∧ (738886 : Date) = s2.currDate ∧ (300 : Int) ≤ s2.currEnd + 900 →
          durStepV2 900 s2 ⟨"A", 738886, 300⟩ = { s2 with currEnd := 300 }) ∧
        (¬(("A" : String) = s2.currType ∧ (738886 : Date) = s2.currDate ∧ (300 : Int) ≤ s2.currEnd + 900) →
          durStepV2 900 s2 ⟨"A", 738886, 300⟩
            = ⟨appendDur s2.durations s2.currDate
                  (s2.currType, s2.currStart, s2.currEnd - s2.currStart),
                "A", 738886, 300, 300⟩))) :=
  ⟨by decide, durStep_boundary_policy 900 ⟨[], some ("A", 738886), 100, 200⟩ "A" 738886
    ⟨"A", 738886, 300⟩ (by decide)⟩

/-! ### Claim C9: the two copies of calc_durations agree -/

lemma foldl_durStepV2_eq (t : Int) (rest : List HB) :
    ∀ (m : DurMap) (c : String) (d : Date) (st en : Int),
    (rest.foldl (durStepV2 t) ⟨m, c, d, st, en⟩).durations =
      (rest.foldl (durStep t) ⟨m, some (c, d), st, en⟩).durations := by
  induction rest with
  | nil => intro m c d st en; rfl
  | cons e rest ih =>
      intro m c d st en
      show (rest.foldl (durStepV2 t) (durStepV2 t ⟨m, c, d, st, en⟩ e)).durations
         = (rest.foldl (durStep t) (durStep t ⟨m, some (c, d), st, en⟩ e)).durations
      by_cases hcnd : e.hbType ≠ c ∨ e.date ≠ d ∨ en + t < e.secs
      · rw [show durStepV2 t ⟨m, c, d, st, en⟩ e
              = ⟨appendDur m d (c, st, en - st), e.hbType, e.date, e.secs, e.secs⟩
            from by simp [durStepV2, hcnd]]
        rw [show durStep t ⟨m, some (c, d), st, en⟩ e
              = ⟨appendDur m d (c, st, en - st), some (e.hbType, e.date), e.secs, e.secs⟩
            from by simp [durStep, hcnd]]
        exact ih _ _ _ _ _
      · rw [show durStepV2 t ⟨m, c, d, st, en⟩ e = ⟨m, c, d, st, e.secs⟩
            from by simp [durStepV2, hcnd]]
        rw [show durStep t ⟨m, some (c, d), st, en⟩ e = ⟨m, some (c, d), st, e.secs⟩
            from by simp [durStep, hcnd]]
        exact ih _ _ _ _ _

/-- C9 (confirmed): on every non-empty stream the two copies of
`calc_durations` compute identical mappings (V1's loop handles the
first event by opening a run without appending, exactly matching V2's
pre-loop `next`); in particular a single-element stream yields the
empty mapping in both. -/
theorem calc_durations_v1_v2_agree (evs : List HB) (t : Int) (h : evs ≠ []) :
    calc_durations_v2 evs t = some (calc_durations evs t) ∧
    ∀ e : HB, calc_durations [e] t = [] ∧ calc_durations_v2 [e] t = some [] := by
  refine ⟨?_, fun e => ⟨rfl, rfl⟩⟩
  match evs with
  | [] => exact absurd rfl h
  | e0 :: rest =>
      have h1 : calc_durations (e0 :: rest) t
          = (rest.foldl (durStep t) ⟨[], some (e0.hbType, e0.date), e0.secs, e0.secs⟩).durations := rfl
      rw [h1]
      simp only [calc_durations_v2]
      rw [foldl_durStepV2_eq]

theorem calc_durations_v1_v2_agree_witness :
    ([⟨"A", 738886, 100⟩, ⟨"B", 738886, 200⟩] : List HB) ≠ [] ∧
    (calc_durations_v2 [⟨"A", 738886, 100⟩, ⟨"B", 738886, 200⟩] 900
        = some (calc_durations [⟨"A", 738886, 100⟩, ⟨"B", 738886, 200⟩] 900) ∧
      ∀ e : HB, calc_durations [e] 900 = [] ∧ calc_durations_v2 [e] 900 = some []) :=
  ⟨by decide, calc_durations_v1_v2_agree _ 900 (by decide)⟩

/-! ### Claim C5: a larger timeout never yields more durations -/

lemma foldl_durStep_timeout_coupling (t1 t2 : Int) (ht : t1 ≤ t2) (evs : List HB) :
    ∀ (s1 s2 : DurState), s2.curr = s1.curr → s2.currEnd = s1.currEnd →
    (∀ d, (getDur s2.durations d).length ≤ (getDur s1.durations d).length) →
    (evs.foldl (durStep t2) s2).curr = (evs.foldl (durStep t1) s1).curr ∧
    (evs.foldl (durStep t2) s2).currEnd = (evs.foldl (durStep t1) s1).currEnd ∧
    ∀ d, (getDur (evs.foldl (durStep t2) s2).durations d).length
        ≤ (getDur (evs.foldl (durStep t1) s1).durations d).length := by
  induction evs with
  | nil => intro s1 s2 hc he hm; exact ⟨hc, he, hm⟩
  | cons e rest ih =>
      intro s1 s2 hc he hm
      simp only [List.foldl_cons]
      rcases h1 : s1.curr with _ | ⟨c, d⟩
      · have h2 : s2.curr = none := by rw [hc, h1]
        rw [durStep_none t1 s1 e h1, durStep_none t2 s2 e h2]
        exact ih _ _ rfl rfl hm
      · have h2 : s2.curr = some (c, d) := by rw [hc, h1]
        by_cases hcl2 : e.hbType ≠ c ∨ e.date ≠ d ∨ s2.currEnd + t2 < e.secs
        · have hcl1 : e.hbType ≠ c ∨ e.date ≠ d ∨ s1.currEnd + t1 < e.secs := by
            rcases hcl2 with hx | hx | hx
            · exact Or.inl hx
            · exact Or.inr (Or.inl hx)
            · rw [he] at hx; exact Or.inr (Or.inr (by omega))
          rw [durStep_close t1 s1 c d e h1 hcl1, durStep_close t2 s2 c d e h2 hcl2]
          refine ih _ _ rfl rfl ?_
          intro d'
          rw [length_getDur_appendDur, length_getDur_appendDur]
          have hmd := hm d'
          split <;> omega
        · have hcont2 := durStep_cont t2 s2 c d e h2 hcl2
          have hne : ¬(e.hbType ≠ c ∨ e.date ≠ d ∨ s2.currEnd + t2 < e.secs) := hcl2
          push_neg at hne
          obtain ⟨hec, hed, _⟩ := hne
          by_cases hcl1 : e.hbType ≠ c ∨ e.date ≠ d ∨ s1.currEnd + t1 < e.secs
          · rw [durStep_close t1 s1 c d e h1 hcl1, hcont2]
            refine ih _ _ ?_ rfl ?_
            · show s2.curr = some (e.hbType, e.date)
              rw [h2, hec, hed]
            · intro d'
              rw [length_getDur_appendDur]
              have hmd := hm d'
              dsimp only
              split <;> omega
          · rw [durStep_cont t1 s1 c d e h1 hcl1, hcont2]
            exact ih _ _ (show s2.curr = s1.curr from hc) rfl hm

/-- C5 (confirmed): for every chronological stream, every date, and all
timeouts t2 > t1 > 0, the number of durations `calc_durations` outputs
for that date with timeout t2 is at most the number with t1: both runs
of the loop keep identical `curr` and `curr_end`, and every run the
larger timeout closes is also closed by the smaller one, under the same
date key. -/
theorem calc_durations_count_antitone_in_timeout (evs : List HB) (d : Date) (t1 t2 : Int)
    (hch : chronological evs = true) (h1 : 0 < t1) (h12 : t1 < t2) :
    (getDur (calc_durations evs t2) d).length ≤ (getDur (calc_durations evs t1) d).length := by
  have hcoup := foldl_durStep_timeout_coupling t1 t2 (le_of_lt h12) evs
    initDurState initDurState rfl rfl (fun _ => le_refl _)
  exact hcoup.2.2 d

theorem calc_durations_count_antitone_in_timeout_witness :
    chronological [⟨"A", 738886, 100⟩, ⟨"A", 738886, 300⟩, ⟨"A", 738886, 900⟩] = true ∧
    (0 : Int) < 100 ∧ (100 : Int) < 500 ∧
    (getDur (calc_durations [⟨"A", 738886, 100⟩, ⟨"A", 738886, 300⟩, ⟨"A", 738886, 900⟩] 500)
        738886).length ≤
      (getDur (calc_durations [⟨"A", 738886, 100⟩, ⟨"A", 738886, 300⟩, ⟨"A", 738886, 900⟩] 100)
        738886).length :=
  ⟨by decide, by decide, by decide,
    calc_durations_count_antitone_in_timeout _ 738886 100 500 (by decide) (by decide) (by decide)⟩

/-! ### Claim C4: per-date duration lists are sorted and non-overlapping -/

/-- Two inclusive intervals `[start, start+length]` overlap: some second
lies in both. -/
def overlapping (a b : Dur) : Prop :=
  ∃ x : Int, a.2.1 ≤ x ∧ x ≤ a.2.1 + a.2.2 ∧ b.2.1 ≤ x ∧ x ≤ b.2.1 + b.2.2

/-- A well-formed per-date list: non-negative lengths, and each entry
ends (inclusively) no later than the next one starts. -/
def GoodList (l : List Dur) : Prop :=
  (∀ u ∈ l, 0 ≤ u.2.2) ∧ List.Chain' (fun a b : Dur => a.2.1 + a.2.2 ≤ b.2.1) l

/-- Every per-date list in the mapping is well-formed. -/
def GoodMap (m : DurMap) : Prop := ∀ p ∈ m, GoodList p.2

lemma chain'_append_singleton {α : Type} (R : α → α → Prop) (l : List α) (v : α) :
    List.Chain' R l → (∀ u ∈ l, R u v) → List.Chain' R (l ++ [v]) := by
  induction l with
  | nil => intro _ _; simp
  | cons a rest ih =>
      intro hl hv
      cases rest with
      | nil => exact List.chain'_cons.mpr ⟨hv a (by simp), by simp⟩
      | cons b rest2 =>
          rw [List.chain'_cons] at hl
          exact List.chain'_cons.mpr
            ⟨hl.1, ih hl.2 (fun u hu => hv u (List.mem_cons_of_mem _ hu))⟩

lemma goodList_starts : ∀ l : List Dur, GoodList l →
    List.Chain' (fun a b : Dur => a.2.1 ≤ b.2.1) l := by
  intro l
  induction l with
  | nil => intro _; simp
  | cons a rest ih =>
      intro h
      obtain ⟨hlen, hchain⟩ := h
      cases rest with
      | nil => simp
      | cons b rest2 =>
          rw [List.chain'_cons] at hchain ⊢
          have h0 : 0 ≤ a.2.2 := hlen a (by simp)
          refine ⟨by omega, ih ⟨fun u hu => hlen u (List.mem_cons_of_mem _ hu), hchain.2⟩⟩

lemma goodMap_appendDur (m : DurMap) (d : Date) (v : Dur)
    (hm : GoodMap m) (hv : 0 ≤ v.2.2)
    (hlast : ∀ u ∈ getDur m d, u.2.1 + u.2.2 ≤ v.2.1) :
    GoodMap (appendDur m d v) := by
  induction m with
  | nil =>
      intro p hp
      simp only [appendDur, List.mem_singleton] at hp
      rw [hp]
      exact ⟨by simpa using hv, by simp⟩
  | cons q rest ih =>
      intro p hp
      by_cases hq : q.1 = d
      · simp only [appendDur, if_pos hq, List.mem_cons] at hp
        rcases hp with hp | hp
        · rw [hp]
          have hgq : GoodList q.2 := hm q (List.mem_cons_self _ _)
          have hlast' : ∀ u ∈ q.2, u.2.1 + u.2.2 ≤ v.2.1 := by
            intro u hu
            apply hlast
            simp only [getDur, if_pos hq]
            exact hu
          refine ⟨?_, chain'_append_singleton _ q.2 v hgq.2 hlast'⟩
          intro u hu
          rcases List.mem_append.mp hu with hu | hu
          · exact hgq.1 u hu
          · rw [List.mem_singleton.mp hu]; exact hv
        · exact hm p (List.mem_cons_of_mem _ hp)
      · simp only [appendDur, if_neg hq, List.mem_cons] at hp
        rcases hp with hp | hp
        · rw [hp]; exact hm q (List.mem_cons_self _ _)
        · refine ih (fun r hr => hm r (List.mem_cons_of_mem _ hr)) ?_ p hp
          intro u hu
          apply hlast
          simp only [getDur, if_neg hq]
          exact hu

/-- Invariant carried along V1's `calc_durations` loop for a
chronological input: the accumulated mapping is well-formed, every key
is at most the open run's date, and everything already stored under the
open run's date ends no later than the open run starts. -/
def DInv (s : DurState) : Prop :=
  GoodMap s.durations ∧
  (s.curr = none → s.durations = []) ∧
  ∀ c d, s.curr = some (c, d) →
    s.currStart ≤ s.currEnd ∧ (∀ p ∈ s.durations, p.1 ≤ d) ∧
    ∀ u ∈ getDur s.durations d, u.2.1 + u.2.2 ≤ s.currStart

lemma durStep_DInv (t : Int) (s : DurState) (e : HB)
    (hs : DInv s)
    (hlink : ∀ c d, s.curr = some (c, d) → d < e.date ∨ (d = e.date ∧ s.currEnd ≤ e.secs)) :
    DInv (durStep t s e) ∧ (durStep t s e).curr = some (e.hbType, e.date) ∧
      (durStep t s e).currEnd = e.secs := by
  obtain ⟨hgood, hnone, hsome⟩ := hs
  rcases hcur : s.curr with _ | ⟨c, d⟩
  · rw [durStep_none t s e hcur]
    have hd0 : s.durations = [] := hnone hcur
    refine ⟨⟨hgood, fun h => Option.noConfusion h, ?_⟩, rfl, rfl⟩
    intro c' d' heq
    injection heq with h2
    injection h2 with ha hb
    subst ha; subst hb
    refine ⟨le_refl _, ?_, ?_⟩
    · rw [hd0]; intro p hp; exact absurd hp (List.not_mem_nil p)
    · rw [hd0]; intro u hu; exact absurd hu (List.not_mem_nil u)
  · have hlk := hlink c d hcur
    obtain ⟨hst, hkeys, hget⟩ := hsome c d hcur
    have hdle : d ≤ e.date := by
      rcases hlk with h | ⟨h1, h2⟩
      · exact le_of_lt h
      · exact le_of_eq h1
    by_cases hcl : e.hbType ≠ c ∨ e.date ≠ d ∨ s.currEnd + t < e.secs
    · rw [durStep_close t s c d e hcur hcl]
      refine ⟨⟨?_, fun h => Option.noConfusion h, ?_⟩, rfl, rfl⟩
      · refine goodMap_appendDur _ _ _ hgood ?_ hget
        show (0 : Int) ≤ s.currEnd - s.currStart
        omega
      · intro c' d' heq
        injection heq with h2
        injection h2 with ha hb
        subst ha; subst hb
        refine ⟨le_refl _, ?_, ?_⟩
        · exact appendDur_keys_le s.durations d e.date _
            (fun p hp => le_trans (hkeys p hp) hdle) hdle
        · by_cases hde : e.date = d
          · have hen : s.currEnd ≤ e.secs := by
              rcases hlk with h | h
              · rw [hde] at h; exact absurd h (lt_irrefl d)
              · exact h.2
            intro u hu
            show u.2.1 + u.2.2 ≤ e.secs
            rw [hde, getDur_appendDur_self] at hu
            rcases List.mem_append.mp hu with hu | hu
            · have := hget u hu; omega
            · rw [List.mem_singleton.mp hu]
              show s.currStart + (s.currEnd - s.currStart) ≤ e.secs
              omega
          · have hlt : d < e.date := by
              rcases hlk with h | h
              · exact h
              · exact absurd h.1.symm hde
            have hnil : getDur (appendDur s.durations d
                (c, s.currStart, s.currEnd - s.currStart)) e.date = [] := by
              apply getDur_eq_nil_of_forall_ne
              intro p hp
              have hpd := appendDur_keys_le s.durations d d _ hkeys (le_refl d) p hp
              exact fun hh => absurd (hh ▸ hpd) (not_le.mpr hlt)
            rw [hnil]
            intro u hu
            exact absurd hu (List.not_mem_nil u)
    · rw [durStep_cont t s c d e hcur hcl]
      push_neg at hcl
      obtain ⟨hec, hed, _⟩ := hcl
      have hen : s.currEnd ≤ e.secs := by
        rcases hlk with h | h
        · rw [hed] at h; exact absurd h (lt_irrefl d)
        · exact h.2
      refine ⟨⟨hgood, ?_, ?_⟩, ?_, rfl⟩
      · intro h
        rw [show ({ s with currEnd := e.secs } : DurState).curr = s.curr from rfl, hcur] at h
        exact Option.noConfusion h
      · intro c' d' heq
        rw [show ({ s with currEnd := e.secs } : DurState).curr = s.curr from rfl, hcur] at heq
        injection heq with h2
        injection h2 with ha hb
        subst ha; subst hb
        exact ⟨by show s.currStart ≤ e.secs; omega, hkeys, hget⟩
      · rw [show ({ s with currEnd := e.secs } : DurState).curr = s.curr from rfl, hcur,
          hec, hed]

lemma foldl_durStep_DInv (t : Int) (evs : List HB) :
    ∀ s : DurState, DInv s →
    (∀ c d, s.curr = some (c, d) →
      ∀ e ∈ evs.head?, d < e.date ∨ (d = e.date ∧ s.currEnd ≤ e.secs)) →
    chronological evs = true →
    DInv (evs.foldl (durStep t) s) := by
  induction evs with
  | nil => intro s hs _ _; simpa using hs
  | cons e rest ih =>
      intro s hs hlink hch
      rw [List.foldl_cons]
      have hstep := durStep_DInv t s e hs (fun c d hcd => hlink c d hcd e (by simp))
      rw [chronological_cons] at hch
      refine ih _ hstep.1 ?_ hch.2
      intro c d hcd e' he'
      rw [hstep.2.1] at hcd
      injection hcd with h2
      injection h2 with ha hb
      subst ha; subst hb
      rw [hstep.2.2]
      exact hch.1 e' he'

/-- C4 (counterexample): on the chronological stream with three events
of categories "A", "B", "C" all at second 100 of the same date and
timeout 900 > 0, the per-date output is [("A",100,0), ("B",100,0)]:
two DISTINCT durations whose inclusive intervals [100,100] and
[100,100] overlap (they share the second 100), refuting the claim that
inclusive intervals of distinct durations never overlap. -/
theorem calc_durations_overlap_counterexample :
    chronological [⟨"A", 738886, 100⟩, ⟨"B", 738886, 100⟩, ⟨"C", 738886, 100⟩] = true ∧
    (0 : Int) < 900 ∧
    getDur (calc_durations [⟨"A", 738886, 100⟩, ⟨"B", 738886, 100⟩, ⟨"C", 738886, 100⟩] 900)
        738886 = [("A", 100, 0), ("B", 100, 0)] ∧
    (("A", (100 : Int), (0 : Int)) : Dur) ≠ (("B", (100 : Int), (0 : Int)) : Dur) ∧
    overlapping ("A", 100, 0) ("B", 100, 0) :=
  ⟨by decide, by decide, by decide, by decide,
    ⟨100, by decide, by decide, by decide, by decide⟩⟩

/-- C4 (amended): for every non-empty chronological stream and timeout
t > 0, within each date's list of `calc_durations` output the
start_seconds are non-decreasing and each duration's inclusive interval
ends no later than the next one starts — consecutive intervals may
touch at a shared endpoint (a zero-gap category change) but never
overlap beyond it. -/
theorem calc_durations_sorted_nonoverlap (evs : List HB) (t : Int)
    (hne : evs ≠ []) (hch : chronological evs = true) (ht : 0 < t) :
    ∀ p ∈ calc_durations evs t,
      List.Chain' (fun a b : Dur => a.2.1 ≤ b.2.1) p.2 ∧
      List.Chain' (fun a b : Dur => a.2.1 + a.2.2 ≤ b.2.1) p.2 := by
  have hinv : DInv (finalDurState evs t) := by
    apply foldl_durStep_DInv t evs initDurState
    · exact ⟨fun p hp => absurd hp (List.not_mem_nil p), fun _ => rfl,
        fun c d h => Option.noConfusion h⟩
    · intro c d h; exact Option.noConfusion h
    · exact hch
  intro p hp
  have hgl : GoodList p.2 := hinv.1 p hp
  exact ⟨goodList_starts p.2 hgl, hgl.2⟩

theorem calc_durations_sorted_nonoverlap_witness :
    ([⟨"A", 738886, 100⟩, ⟨"B", 738886, 2000⟩, ⟨"A", 738886, 4000⟩] : List HB) ≠ [] ∧
    chronological [⟨"A", 738886, 100⟩, ⟨"B", 738886, 2000⟩, ⟨"A", 738886, 4000⟩] = true ∧
    (0 : Int) < 900 ∧
    ∀ p ∈ calc_durations [⟨"A", 738886, 100⟩, ⟨"B", 738886, 2000⟩, ⟨"A", 738886, 4000⟩] 900,
      List.Chain' (fun a b : Dur => a.2.1 ≤ b.2.1) p.2 ∧
      List.Chain' (fun a b : Dur => a.2.1 + a.2.2 ≤ b.2.1) p.2 :=
  ⟨by decide, by decide, by decide,
    calc_durations_sorted_nonoverlap _ 900 (by decide) (by decide) (by decide)⟩

/-! ### The weekly occupancy matrix of calc_duration_counts -/

/-- The numpy array `zeros((7, 86399))` as a function on (row, column)
indices; entries outside the 7 × 86399 rectangle stay 0 and are never
read by the code. -/
abbrev Matrix7 := Int → Int → Int

/-- All-zero matrix, `zeros((_DAYS_IN_WEEK, _SECS_IN_DAY - 1))`. -/
def zerosM : Matrix7 := fun _ _ => 0

/-- numpy basic-slice bound normalization for an axis of length `n`: a
negative bound counts from the end, and bounds are clipped into
`[0, n]`. -/
def npClip (n i : Int) : Int := if i < 0 then max (n + i) 0 else min i n

/-- The slice increment `m[row, lo:hi] += 1` on a row of length 86399:
column `c` is incremented when it lies in the clipped slice. -/
def sliceIncr (m : Matrix7) (row lo hi : Int) : Matrix7 :=
  fun r c =>
    if r = row ∧ npClip 86399 lo ≤ c ∧ c < npClip 86399 hi then m r c + 1 else m r c

/-- Sum of all cells of the 7 × 86399 matrix. -/
def cellSum (m : Matrix7) : Int :=
  ∑ r ∈ Finset.Ico (0 : Int) 7, ∑ c ∈ Finset.Ico (0 : Int) 86399, m r c

lemma npClip_bounds (n i : Int) (hn : 0 ≤ n) : 0 ≤ npClip n i ∧ npClip n i ≤ n := by
  unfold npClip; split <;> constructor <;> omega

lemma npClip_of_mem (n i : Int) (h0 : 0 ≤ i) (h1 : i ≤ n) : npClip n i = i := by
  unfold npClip; split <;> omega

lemma cellSum_zerosM : cellSum zerosM = 0 := by
  simp [cellSum, zerosM]

lemma weekday_bounds (d : Date) : 0 ≤ weekday d ∧ weekday d < 7 :=
  ⟨Int.emod_nonneg _ (by norm_num), Int.emod_lt_of_pos _ (by norm_num)⟩

lemma cellSum_sliceIncr (m : Matrix7) (row lo hi : Int) (hr0 : 0 ≤ row) (hr7 : row < 7) :
    cellSum (sliceIncr m row lo hi)
      = cellSum m + max 0 (npClip 86399 hi - npClip 86399 lo) := by
  unfold cellSum sliceIncr
  have hcong : ∀ r ∈ Finset.Ico (0 : Int) 7, ∀ c ∈ Finset.Ico (0 : Int) 86399,
      (if r = row ∧ npClip 86399 lo ≤ c ∧ c < npClip 86399 hi then m r c + 1 else m r c)
        = m r c + (if r = row ∧ npClip 86399 lo ≤ c ∧ c < npClip 86399 hi
            then (1 : Int) else 0) := by
    intro r _ c _
    split <;> ring
  have hrow : ∀ r ∈ Finset.Ico (0 : Int) 7,
      (∑ c ∈ Finset.Ico (0 : Int) 86399,
        (if r = row ∧ npClip 86399 lo ≤ c ∧ c < npClip 86399 hi then (1 : Int) else 0))
      = if r = row then max 0 (npClip 86399 hi - npClip 86399 lo) else 0 := by
    intro r _
    by_cases hr : r = row
    · rw [if_pos hr]
      have hcc : ∀ c ∈ Finset.Ico (0 : Int) 86399,
          (if r = row ∧ npClip 86399 lo ≤ c ∧ c < npClip 86399 hi then (1 : Int) else 0)
            = if npClip 86399 lo ≤ c ∧ c < npClip 86399 hi then (1 : Int) else 0 := by
        intro c _
        by_cases hcl : npClip 86399 lo ≤ c ∧ c < npClip 86399 hi
        · rw [if_pos ⟨hr, hcl⟩, if_pos hcl]
        · rw [if_neg (fun hh => hcl hh.2), if_neg hcl]
      rw [Finset.sum_congr rfl hcc, Finset.sum_boole]
      have hfil : (Finset.Ico (0 : Int) 86399).filter
          (fun c => npClip 86399 lo ≤ c ∧ c < npClip 86399 hi)
          = Finset.Ico (npClip 86399 lo) (npClip 86399 hi) := by
        have hlob := npClip_bounds 86399 lo (by norm_num)
        have hhib := npClip_bounds 86399 hi (by norm_num)
        ext c
        simp only [Finset.mem_filter, Finset.mem_Ico]
        omega
      rw [hfil, Int.card_Ico, Int.toNat_eq_max]
      omega
    · rw [if_neg hr]
      refine Finset.sum_eq_zero ?_
      intro c _
      rw [if_neg (fun hh => hr hh.1)]
  rw [Finset.sum_congr rfl
    (fun r hr => by rw [Finset.sum_congr rfl (hcong r hr), Finset.sum_add_distrib])]
  rw [Finset.sum_add_distrib]
  rw [Finset.sum_congr rfl hrow]
  rw [Finset.sum_ite_eq' (Finset.Ico (0 : Int) 7) row
    (fun _ => max 0 (npClip 86399 hi - npClip 86399 lo))]
  rw [if_pos (Finset.mem_Ico.mpr ⟨hr0, hr7⟩)]

/-- Loop state of V1's `calc_duration_counts` (src/heartbeats_data.py
lines 76-79): `curr_date` starts as `None`, `curr_start` and `curr_end`
as `0`. -/
structure CntState where
  counts : Matrix7
  currDate : Option Date
  currStart : Int
  currEnd : Int

/-- One iteration of V1's `calc_duration_counts` loop
(src/heartbeats_data.py lines 80-86): merging ignores the category
(`hb_type` is unused); on closing, row `weekday(curr_date)` is
incremented over the slice `curr_start : curr_end + 1`. -/
def cntStep (t : Int) (s : CntState) (e : HB) : CntState :=
  match s.currDate with
  | none =>
      { counts := s.counts, currDate := some e.date,
        currStart := e.secs, currEnd := e.secs }
  | some d =>
      if e.date ≠ d ∨ s.currEnd + t < e.secs then
        { counts := sliceIncr s.counts (weekday d) s.currStart (s.currEnd + 1),
          currDate := some e.date, currStart := e.secs, currEnd := e.secs }
      else
        { s with currEnd := e.secs }

/-- V1's `calc_duration_counts` (src/heartbeats_data.py lines 74-86):
the matrix left in `self.duration_counts` after the loop; the final
open run is never accumulated. -/
def calc_duration_counts (hbs : List HB) (t : Int) : Matrix7 :=
  (hbs.foldl (cntStep t) ⟨zerosM, none, 0, 0⟩).counts

/-- The (date, start, end) triples of the runs `calc_duration_counts`'s
loop closes, in closing order, mirroring the line-81 condition with the
open run seeded at (d, st, en); the run still open at the end of the
stream is not included, matching the loop. -/
def runsFrom (t : Int) (d : Date) (st en : Int) : List HB → List (Date × Int × Int)
  | [] => []
  | e :: rest =>
      if e.date ≠ d ∨ en + t < e.secs then
        (d, st, en) :: runsFrom t e.date e.secs e.secs rest
      else
        runsFrom t d st e.secs rest

/-- All runs that `calc_duration_counts` closes while passing over the
given stream. -/
def closedRuns (t : Int) : List HB → List (Date × Int × Int)
  | [] => []
  | e :: rest => runsFrom t e.date e.secs e.secs rest

lemma cntStep_close (t : Int) (s : CntState) (d : Date) (e : HB)
    (h : s.currDate = some d) (hc : e.date ≠ d ∨ s.currEnd + t < e.secs) :
    cntStep t s e
      = ⟨sliceIncr s.counts (weekday d) s.currStart (s.currEnd + 1),
          some e.date, e.secs, e.secs⟩ := by
  simp [cntStep, h, hc]

lemma cntStep_cont (t : Int) (s : CntState) (d : Date) (e : HB)
    (h : s.currDate = some d) (hc : ¬(e.date ≠ d ∨ s.currEnd + t < e.secs)) :
    cntStep t s e = { s with currEnd := e.secs } := by
  simp [cntStep, h, hc]

lemma cntStep_close_lit (t : Int) (cnts : Matrix7) (d : Date) (st en : Int) (e : HB)
    (hc : e.date ≠ d ∨ en + t < e.secs) :
    cntStep t ⟨cnts, some d, st, en⟩ e
      = ⟨sliceIncr cnts (weekday d) st (en + 1), some e.date, e.secs, e.secs⟩ := by
  simp [cntStep, hc]

lemma cntStep_cont_lit (t : Int) (cnts : Matrix7) (d : Date) (st en : Int) (e : HB)
    (hc : ¬(e.date ≠ d ∨ en + t < e.secs)) :
    cntStep t ⟨cnts, some d, st, en⟩ e = ⟨cnts, some d, st, e.secs⟩ := by
  simp [cntStep, hc]

lemma foldl_cntStep_cellSum (t : Int) (evs : List HB) :
    ∀ (cnts : Matrix7) (d : Date) (st en : Int),
    0 ≤ st → st ≤ en → en ≤ 86398 →
    (∀ e ∈ evs, 0 ≤ e.secs ∧ e.secs ≤ 86398) →
    (∀ e ∈ evs.head?, d < e.date ∨ (d = e.date ∧ en ≤ e.secs)) →
    chronological evs = true →
    cellSum ((evs.foldl (cntStep t) ⟨cnts, some d, st, en⟩).counts)
      = cellSum cnts
        + ((runsFrom t d st en evs).map (fun r => r.2.2 - r.2.1 + 1)).sum := by
  induction evs with
  | nil => intro cnts d st en _ _ _ _ _ _; simp [runsFrom]
  | cons e rest ih =>
      intro cnts d st en h0 h1 h2 hsec hlink hch
      rw [List.foldl_cons]
      rw [chronological_cons] at hch
      have hsece := hsec e (List.mem_cons_self _ _)
      have hlk := hlink e (by simp)
      by_cases hcl : e.date ≠ d ∨ en + t < e.secs
      · rw [cntStep_close_lit t cnts d st en e hcl]
        have hwd := weekday_bounds d
        rw [ih (sliceIncr cnts (weekday d) st (en + 1)) e.date e.secs e.secs
          hsece.1 (le_refl _) hsece.2
          (fun e' he' => hsec e' (List.mem_cons_of_mem _ he'))
          (fun b hb => by
            rcases hch.1 b hb with h | ⟨hx, hy⟩
            · exact Or.inl h
            · exact Or.inr ⟨hx, hy⟩)
          hch.2]
        rw [cellSum_sliceIncr cnts (weekday d) st (en + 1) hwd.1 hwd.2]
        rw [npClip_of_mem 86399 st h0 (by omega),
          npClip_of_mem 86399 (en + 1) (by omega) (by omega)]
        have hrn : runsFrom t d st en (e :: rest)
            = (d, st, en) :: runsFrom t e.date e.secs e.secs rest := by
          simp only [runsFrom]
          rw [if_pos hcl]
        rw [hrn]
        simp only [List.map_cons, List.sum_cons]
        omega
      · rw [cntStep_cont_lit t cnts d st en e hcl]
        have hne : ¬(e.date ≠ d ∨ en + t < e.secs) := hcl
        push_neg at hne
        obtain ⟨hde, hgap⟩ := hne
        have hen_le : en ≤ e.secs := by
          rcases hlk with h | h
          · rw [hde] at h; exact absurd h (lt_irrefl d)
          · exact h.2
        rw [ih cnts d st e.secs h0 (by omega) hsece.2
          (fun e' he' => hsec e' (List.mem_cons_of_mem _ he'))
          (fun b hb => by
            rcases hch.1 b hb with h | ⟨hx, hy⟩
            · exact Or.inl (hde ▸ h)
            · exact Or.inr ⟨hde ▸ hx, hy⟩)
          hch.2]
        have hrn : runsFrom t d st en (e :: rest) = runsFrom t d st e.secs rest := by
          simp only [runsFrom]
          rw [if_neg hcl]
        rw [hrn]

/-- C6 (counterexample): for the chronological stream with an event at
second 86399 (23:59:59, within the claimed range [0, 86399]) whose run
is closed by the next day's event, with timeout 900 > 0, the closed
run's inclusive length is 1 but the matrix cell total is 0: the matrix
has only 86399 columns (0..86398), so the slice `86399:86400` is
clipped away and second 86399 is silently dropped. -/
theorem cellSum_day_end_counterexample :
    chronological [⟨"A", 738886, 86399⟩, ⟨"A", 738887, 0⟩] = true ∧
    (∀ e ∈ ([⟨"A", 738886, 86399⟩, ⟨"A", 738887, 0⟩] : List HB),
      0 ≤ e.secs ∧ e.secs ≤ 86399) ∧
    (0 : Int) < 900 ∧
    ((closedRuns 900 [⟨"A", 738886, 86399⟩, ⟨"A", 738887, 0⟩]).map
        (fun r => r.2.2 - r.2.1 + 1)).sum = 1 ∧
    cellSum (calc_duration_counts [⟨"A", 738886, 86399⟩, ⟨"A", 738887, 0⟩] 900) = 0 := by
  refine ⟨by decide, by decide, by decide, by decide, ?_⟩
  have hm : calc_duration_counts [⟨"A", 738886, 86399⟩, ⟨"A", 738887, 0⟩] 900
      = sliceIncr zerosM (weekday 738886) 86399 (86399 + 1) := by
    simp only [calc_duration_counts, List.foldl_cons, List.foldl_nil]
    rw [show cntStep 900 ⟨zerosM, none, 0, 0⟩ ⟨"A", 738886, 86399⟩
        = ⟨zerosM, some 738886, 86399, 86399⟩ from by simp [cntStep]]
    rw [cntStep_close_lit 900 zerosM 738886 86399 86399 ⟨"A", 738887, 0⟩
      (Or.inl (by decide))]
  rw [hm, cellSum_sliceIncr zerosM (weekday 738886) 86399 (86399 + 1)
    (weekday_bounds 738886).1 (weekday_bounds 738886).2, cellSum_zerosM]
  rw [show npClip 86399 (86399 + 1) = 86399 from by decide,
    show npClip 86399 86399 = 86399 from by decide]
  decide

/-- C6 (amended): for every chronological stream all of whose
second-of-day values lie in [0, 86398] (the matrix's valid column
range) and every timeout t > 0, after `calc_duration_counts` runs the
sum of all matrix cells equals the sum over all closed merged runs of
their inclusive length end - start + 1.  (An event at second 86399 is
silently clipped away by the 86399-column matrix, so the claimed range
[0, 86399] must shrink by one.) -/
theorem calc_duration_counts_cellSum (evs : List HB) (t : Int)
    (hch : chronological evs = true)
    (hsec : ∀ e ∈ evs, 0 ≤ e.secs ∧ e.secs ≤ 86398)
    (ht : 0 < t) :
    cellSum (calc_duration_counts evs t)
      = ((closedRuns t evs).map (fun r => r.2.2 - r.2.1 + 1)).sum := by
  match evs with
  | [] => simp [calc_duration_counts, closedRuns, cellSum_zerosM]
  | e0 :: rest =>
      have h0 : calc_duration_counts (e0 :: rest) t
          = (rest.foldl (cntStep t) ⟨zerosM, some e0.date, e0.secs, e0.secs⟩).counts := rfl
      rw [h0]
      have hse := hsec e0 (List.mem_cons_self _ _)
      rw [chronological_cons] at hch
      rw [foldl_cntStep_cellSum t rest zerosM e0.date e0.secs e0.secs hse.1 (le_refl _) hse.2
        (fun e he => hsec e (List.mem_cons_of_mem _ he))
        (fun b hb => by
          rcases hch.1 b hb with h | ⟨hx, hy⟩
          · exact Or.inl h
          · exact Or.inr ⟨hx, hy⟩)
        hch.2]
      rw [cellSum_zerosM]
      have hcr : closedRuns t (e0 :: rest) = runsFrom t e0.date e0.secs e0.secs rest := rfl
      rw [hcr]
      omega

theorem calc_duration_counts_cellSum_witness :
    chronological [⟨"A", 738886, 100⟩, ⟨"B", 738886, 2000⟩] = true ∧
    (∀ e ∈ ([⟨"A", 738886, 100⟩, ⟨"B", 738886, 2000⟩] : List HB),
      0 ≤ e.secs ∧ e.secs ≤ 86398) ∧
    (0 : Int) < 900 ∧
    cellSum (calc_duration_counts [⟨"A", 738886, 100⟩, ⟨"B", 738886, 2000⟩] 900)
      = ((closedRuns 900 [⟨"A", 738886, 100⟩, ⟨"B", 738886, 2000⟩]).map
          (fun r => r.2.2 - r.2.1 + 1)).sum :=
  ⟨by decide, by decide, by decide,
    calc_duration_counts_cellSum _ 900 (by decide) (by decide) (by decide)⟩

/-- C7 (confirmed): in `calc_duration_counts` the event's category plays
no role (replacing it changes nothing); with a run open on date d, the
event continues the run exactly when its date is d and its second is at
most `curr_end + timeout`; otherwise the run closes and every existing
matrix cell (weekday d, second) with second in [curr_start, curr_end]
is incremented by one, while cells of other rows or outside that span
are unchanged.  (Hypotheses 0 ≤ curr_start, curr_end hold for every
store fed by add_hb, whose seconds lie in [0, 86399].) -/
theorem cntStep_ignores_category (t : Int) (s : CntState) (d : Date) (e : HB)
    (h : s.currDate = some d) (hst : 0 ≤ s.currStart) (hen : 0 ≤ s.currEnd) :
    (∀ c' : String, cntStep t s { e with hbType := c' } = cntStep t s e) ∧
    ((e.date = d ∧ e.secs ≤ s.currEnd + t) →
      cntStep t s e = { s with currEnd := e.secs }) ∧
    (¬(e.date = d ∧ e.secs ≤ s.currEnd + t) →
      (cntStep t s e).currDate = some e.date ∧
      (cntStep t s e).currStart = e.secs ∧ (cntStep t s e).currEnd = e.secs ∧
      ∀ r c : Int, 0 ≤ c → c < 86399 →
        (cntStep t s e).counts r c
          = if r = weekday d ∧ s.currStart ≤ c ∧ c ≤ s.currEnd
            then s.counts r c + 1 else s.counts r c) := by
  have hiff : (e.date ≠ d ∨ s.currEnd + t < e.secs)
      ↔ ¬(e.date = d ∧ e.secs ≤ s.currEnd + t) := by
    constructor
    · rintro (h1 | h2) ⟨k1, k2⟩
      exacts [h1 k1, absurd k2 (not_le.mpr h2)]
    · intro hn
      by_contra hno
      push_neg at hno
      exact hn ⟨hno.1, hno.2⟩
  refine ⟨fun c' => rfl, ?_, ?_⟩
  · intro hcont
    exact cntStep_cont t s d e h (fun hc => hiff.mp hc hcont)
  · intro hn
    rw [cntStep_close t s d e h (hiff.mpr hn)]
    refine ⟨rfl, rfl, rfl, ?_⟩
    intro r c hc0 hc1
    show sliceIncr s.counts (weekday d) s.currStart (s.currEnd + 1) r c = _
    unfold sliceIncr
    have hlo : npClip 86399 s.currStart = min s.currStart 86399 := by
      unfold npClip; rw [if_neg (by omega)]
    have hhi : npClip 86399 (s.currEnd + 1) = min (s.currEnd + 1) 86399 := by
      unfold npClip; rw [if_neg (by omega)]
    rw [hlo, hhi]
    by_cases hr : r = weekday d
    · by_cases hin : s.currStart ≤ c ∧ c ≤ s.currEnd
      · rw [if_pos ⟨hr, by omega, by omega⟩, if_pos ⟨hr, hin⟩]
      · have hng : ¬(r = weekday d ∧ min s.currStart 86399 ≤ c
            ∧ c < min (s.currEnd + 1) 86399) := by
          rintro ⟨-, hh1, hh2⟩
          exact hin ⟨by omega, by omega⟩
        rw [if_neg hng, if_neg (fun hh => hin hh.2)]
    · rw [if_neg (fun hh => hr hh.1), if_neg (fun hh => hr hh.1)]

theorem cntStep_ignores_category_witness :
    (⟨zerosM, some 738886, 10, 20⟩ : CntState).currDate = some 738886 ∧
    (0 : Int) ≤ (⟨zerosM, some 738886, 10, 20⟩ : CntState).currStart ∧
    (0 : Int) ≤ (⟨zerosM, some 738886, 10, 20⟩ : CntState).currEnd ∧
    ((∀ c' : String, cntStep 900 ⟨zerosM, some 738886, 10, 20⟩
        { (⟨"A", 738887, 30⟩ : HB) with hbType := c' }
          = cntStep 900 ⟨zerosM, some 738886, 10, 20⟩ ⟨"A", 738887, 30⟩) ∧
      (((⟨"A", 738887, 30⟩ : HB).date = 738886
          ∧ (⟨"A", 738887, 30⟩ : HB).secs ≤ (⟨zerosM, some 738886, 10, 20⟩ : CntState).currEnd + 900) →
        cntStep 900 ⟨zerosM, some 738886, 10, 20⟩ ⟨"A", 738887, 30⟩
          = { (⟨zerosM, some 738886, 10, 20⟩ : CntState) with
              currEnd := (⟨"A", 738887, 30⟩ : HB).secs }) ∧
      (¬((⟨"A", 738887, 30⟩ : HB).date = 738886
          ∧ (⟨"A", 738887, 30⟩ : HB).secs ≤ (⟨zerosM, some 738886, 10, 20⟩ : CntState).currEnd + 900) →
        (cntStep 900 ⟨zerosM, some 738886, 10, 20⟩ ⟨"A", 738887, 30⟩).currDate = some 738887 ∧
        (cntStep 900 ⟨zerosM, some 738886, 10, 20⟩ ⟨"A", 738887, 30⟩).currStart = 30 ∧
        (cntStep 900 ⟨zerosM, some 738886, 10, 20⟩ ⟨"A", 738887, 30⟩).currEnd = 30 ∧
        ∀ r c : Int, 0 ≤ c → c < 86399 →
          (cntStep 900 ⟨zerosM, some 738886, 10, 20⟩ ⟨"A", 738887, 30⟩).counts r c
            = if r = weekday 738886
                ∧ (⟨zerosM, some 738886, 10, 20⟩ : CntState).currStart ≤ c
                ∧ c ≤ (⟨zerosM, some 738886, 10, 20⟩ : CntState).currEnd
              then (⟨zerosM, some 738886, 10, 20⟩ : CntState).counts r c + 1
              else (⟨zerosM, some 738886, 10, 20⟩ : CntState).counts r c)) :=
  ⟨rfl, by norm_num, by norm_num,
    cntStep_ignores_category 900 ⟨zerosM, some 738886, 10, 20⟩ 738886 ⟨"A", 738887, 30⟩
      rfl (by norm_num) (by norm_num)⟩

/-! ### Claim C10: the event containers are class-level shared state -/

/-- The Python `Counter` `hb_type_counter`, as an insertion-ordered
association list; `counter[k] += 1` on a missing key inserts it at the
end with count 1. -/
def counterIncr (c : List (String × Int)) (k : String) : List (String × Int) :=
  match c with
  | [] => [(k, 1)]
  | p :: rest => if p.1 = k then (p.1, p.2 + 1) :: rest else p :: counterIncr rest k

/-- A timestamp as consumed by `add_hb`: its calendar date plus the
hour, minute and second fields read on line 56. -/
structure Timestamp where
  date : Date
  hour : Int
  minute : Int
  second : Int

/-- `timestamp.hour*_SECS_IN_HOUR + timestamp.minute*_SECS_IN_MIN +
timestamp.second` (src/heartbeats_data.py line 56). -/
def secsOf (ts : Timestamp) : Int := ts.hour * 3600 + ts.minute * 60 + ts.second

/-- The class-attribute namespace of `HeartbeatData`
(src/heartbeats_data.py lines 35-38): the four event containers are
created once when the class body is evaluated and live on the class,
not on any instance. -/
structure ClassState where
  hb_type_counter : List (String × Int)
  hb_types : List String
  dates : List Date
  secs_since_midnights : List Int

/-- An instance's attribute-dictionary entries for the four container
names: `none` means the name is absent from the instance dictionary, so
`self.<name>` resolves to the class attribute.  No method of
`HeartbeatData` ever rebinds these names on an instance, and `__init__`
(lines 46-47) sets only `fig` and `ax`. -/
structure PyInstance where
  inst_counter : Option (List (String × Int))
  inst_hb_types : Option (List String)
  inst_dates : Option (List Date)
  inst_secs : Option (List Int)

/-- The instance state `HeartbeatData()` produces: no event-container
entries in the instance dictionary. -/
def initInstance : PyInstance := ⟨none, none, none, none⟩

/-- Attribute lookup `self.hb_type_counter`: instance dictionary first,
then the class attribute. -/
def lookup_counter (cls : ClassState) (i : PyInstance) : List (String × Int) :=
  i.inst_counter.getD cls.hb_type_counter

/-- Attribute lookup `self.hb_types`. -/
def lookup_hb_types (cls : ClassState) (i : PyInstance) : List String :=
  i.inst_hb_types.getD cls.hb_types

/-- Attribute lookup `self.dates`. -/
def lookup_dates (cls : ClassState) (i : PyInstance) : List Date :=
  i.inst_dates.getD cls.dates

/-- Attribute lookup `self.secs_since_midnights`. -/
def lookup_secs (cls : ClassState) (i : PyInstance) : List Int :=
  i.inst_secs.getD cls.secs_since_midnights

/-- `add_hb` (src/heartbeats_data.py lines 49-56).  Every statement
mutates the object found by attribute lookup in place (`[...] += 1` on
the Counter, `list.append` on the lists) and never rebinds a name on
the instance, so when the instance dictionary lacks a name the
class-level container itself is mutated; the counter is touched only
for a non-empty category, with the original name, while the appended
category is the normalized one. -/
def add_hb (cls : ClassState) (i : PyInstance) (hb_type : String) (ts : Timestamp) :
    ClassState × PyInstance :=
  let ci :=
    if hb_type = "" then (cls, i)
    else
      match i.inst_counter with
      | none => ({ cls with hb_type_counter := counterIncr cls.hb_type_counter hb_type }, i)
      | some co => (cls, { i with inst_counter := some (counterIncr co hb_type) })
  let nt := if hb_type = "" then "Other" else hb_type
  let ci :=
    match ci.2.inst_hb_types with
    | none => ({ ci.1 with hb_types := ci.1.hb_types ++ [nt] }, ci.2)
    | some l => (ci.1, { ci.2 with inst_hb_types := some (l ++ [nt]) })
  let ci :=
    match ci.2.inst_dates with
    | none => ({ ci.1 with dates := ci.1.dates ++ [ts.date] }, ci.2)
    | some l => (ci.1, { ci.2 with inst_dates := some (l ++ [ts.date]) })
  match ci.2.inst_secs with
  | none =>
      ({ ci.1 with secs_since_midnights := ci.1.secs_since_midnights ++ [secsOf ts] }, ci.2)
  | some l => (ci.1, { ci.2 with inst_secs := some (l ++ [secsOf ts]) })

/-- `zip(self.hb_types, self.dates, self.secs_since_midnights)`:
truncates to the shortest list, like Python's zip. -/
def zipHB : List String → List Date → List Int → List HB
  | t :: ts, d :: ds, s :: ss => ⟨t, d, s⟩ :: zipHB ts ds ss
  | _, _, _ => []

/-- The heartbeat stream an instance reads: the zip of its three
looked-up containers. -/
def readHeartbeats (cls : ClassState) (i : PyInstance) : List HB :=
  zipHB (lookup_hb_types cls i) (lookup_dates cls i) (lookup_secs cls i)

/-- `self.calc_durations(timeout)` invoked on an instance: V1's
algorithm over the instance's view of the store. -/
def calc_durations_method (cls : ClassState) (i : PyInstance) (t : Int) : DurMap :=
  calc_durations (readHeartbeats cls i) t

/-- `self.calc_duration_counts(timeout)` invoked on an instance. -/
def calc_duration_counts_method (cls : ClassState) (i : PyInstance) (t : Int) : Matrix7 :=
  calc_duration_counts (readHeartbeats cls i) t

lemma zipHB_append (l1 : List String) (l2 : List Date) (l3 : List Int)
    (x : String) (y : Date) (z : Int)
    (h12 : l1.length = l2.length) (h23 : l2.length = l3.length) :
    zipHB (l1 ++ [x]) (l2 ++ [y]) (l3 ++ [z]) = zipHB l1 l2 l3 ++ [⟨x, y, z⟩] := by
  induction l1 generalizing l2 l3 with
  | nil =>
      cases l2 with
      | nil =>
          cases l3 with
          | nil => rfl
          | cons c cs => simp at h23
      | cons b bs => simp at h12
  | cons a as ih =>
      cases l2 with
      | nil => simp at h12
      | cons b bs =>
          cases l3 with
          | nil => simp at h23
          | cons c cs =>
              simp only [List.cons_append, zipHB]
              exact congrArg (List.cons ⟨a, b, c⟩)
                (ih bs cs (by simpa using h12) (by simpa using h23))

/-- C10 (confirmed): the four event containers are class-level state
shared across instances.  For any class state and any two instances a,
b fresh from `__init__` (whose instance dictionaries lack the container
names), `a.add_hb(category, timestamp)` leaves a's instance dictionary
unchanged and mutates the class containers, so the stream
`b.calc_durations` and `b.calc_duration_counts` subsequently read
through attribute lookup is exactly the shared stream extended by the
new event, and the shared counter gains the (non-empty) category. -/
theorem add_hb_shared_across_instances (cls : ClassState) (a b : PyInstance)
    (ha : a = initInstance) (hb2 : b = initInstance)
    (hlen1 : cls.hb_types.length = cls.dates.length)
    (hlen2 : cls.dates.length = cls.secs_since_midnights.length)
    (hb_type : String) (ts : Timestamp) (t : Int) :
    (add_hb cls a hb_type ts).2 = a ∧
    readHeartbeats (add_hb cls a hb_type ts).1 b
      = readHeartbeats cls b
          ++ [⟨if hb_type = "" then "Other" else hb_type, ts.date, secsOf ts⟩] ∧
    calc_durations_method (add_hb cls a hb_type ts).1 b t
      = calc_durations (readHeartbeats cls b
          ++ [⟨if hb_type = "" then "Other" else hb_type, ts.date, secsOf ts⟩]) t ∧
    lookup_counter (add_hb cls a hb_type ts).1 b
      = (if hb_type = "" then cls.hb_type_counter
          else counterIncr cls.hb_type_counter hb_type) := by
  subst ha; subst hb2
  have hcls : (add_hb cls initInstance hb_type ts).1
      = { hb_type_counter := if hb_type = "" then cls.hb_type_counter
            else counterIncr cls.hb_type_counter hb_type,
          hb_types := cls.hb_types ++ [if hb_type = "" then "Other" else hb_type],
          dates := cls.dates ++ [ts.date],
          secs_since_midnights := cls.secs_since_midnights ++ [secsOf ts] } := by
    by_cases he : hb_type = "" <;> simp [add_hb, initInstance, he]
  have hinst : (add_hb cls initInstance hb_type ts).2 = initInstance := by
    by_cases he : hb_type = "" <;> simp [add_hb, initInstance, he]
  have hread : readHeartbeats (add_hb cls initInstance hb_type ts).1 initInstance
      = readHeartbeats cls initInstance
          ++ [⟨if hb_type = "" then "Other" else hb_type, ts.date, secsOf ts⟩] := by
    rw [hcls]
    exact zipHB_append _ _ _ _ _ _ hlen1 hlen2
  refine ⟨hinst, hread, ?_, ?_⟩
  · unfold calc_durations_method
    rw [hread]
  · rw [hcls]
    rfl

theorem add_hb_shared_across_instances_witness :
    initInstance = initInstance ∧ initInstance = initInstance ∧
    (⟨[], [], [], []⟩ : ClassState).hb_types.length
      = (⟨[], [], [], []⟩ : ClassState).dates.length ∧
    (⟨[], [], [], []⟩ : ClassState).dates.length
      = (⟨[], [], [], []⟩ : ClassState).secs_since_midnights.length ∧
    ((add_hb ⟨[], [], [], []⟩ initInstance "A" ⟨738886, 9, 0, 0⟩).2 = initInstance ∧
      readHeartbeats (add_hb ⟨[], [], [], []⟩ initInstance "A" ⟨738886, 9, 0, 0⟩).1 initInstance
        = readHeartbeats ⟨[], [], [], []⟩ initInstance
            ++ [⟨if "A" = "" then "Other" else "A",
                  (⟨738886, 9, 0, 0⟩ : Timestamp).date, secsOf ⟨738886, 9, 0, 0⟩⟩] ∧
      calc_durations_method (add_hb ⟨[], [], [], []⟩ initInstance "A" ⟨738886, 9, 0, 0⟩).1
          initInstance 900
        = calc_durations (readHeartbeats ⟨[], [], [], []⟩ initInstance
            ++ [⟨if "A" = "" then "Other" else "A",
                  (⟨738886, 9, 0, 0⟩ : Timestamp).date, secsOf ⟨738886, 9, 0, 0⟩⟩]) 900 ∧
      lookup_counter (add_hb ⟨[], [], [], []⟩ initInstance "A" ⟨738886, 9, 0, 0⟩).1 initInstance
        = (if "A" = "" then (⟨[], [], [], []⟩ : ClassState).hb_type_counter
            else counterIncr (⟨[], [], [], []⟩ : ClassState).hb_type_counter "A")) :=
  ⟨rfl, rfl, rfl, rfl,
    add_hb_shared_across_instances ⟨[], [], [], []⟩ initInstance initInstance rfl rfl rfl rfl
      "A" ⟨738886, 9, 0, 0⟩ 900⟩
